import Mathlib

/-!
Verification development for the emu502 repository: a 6502 emulator paired
with a single-pass symbolic assembler.  The definitions below are shallow
embeddings of the C++ sources:

* `src/src/cpu/memory.hpp` — the `Memory` bus (Load/Store/Write/ReadRange)
  and its interaction with the `Clock`;
* the assembler compilation context (`CompilationContext::AddLabel`,
  `RelocateLabel`, `ParseInstruction`, `SelectInstuctionVariant`,
  `ProcessInstructionArgument`) found in `src/lib/cpu_6502/test/base_test.hpp`
  (second concatenated document, `compilation_context.cpp`);
* the assembler data model (`SymbolInfo`/`LabelInfo`, `RelocationInfo`,
  `RelocationMode`, `SparseBinaryCode`, `Program`) from `src/unnamed/part_000`.

Machine integers are modelled as `Nat` with explicit `% 2^w` where the C++
performs a narrowing conversion (`Address_t` is `uint16_t`, bytes are
`uint8_t`).  Fallible operations return `Except AsmError`.  Functions whose
bodies are not present under `src/` (only declarations or callers are) are
modelled from the specification; each such definition says so in its doc
comment.
-/

namespace Emu502

/-! ## Memory bus (src/src/cpu/memory.hpp)

The C++ `Memory` owns a 64 KiB byte array (filled with `0x55`) and a pointer
to a `Clock`.  The clock is specified only through its contract (spec §3,
§6): `wait_for_next_cycle` advances a monotonic counter by one tick.  We
model the clock as that counter. -/

/-- Modelled from the spec: the `Clock` contract (§3 "each bus access
advances it by one tick", §6 `wait_for_next_cycle()`); the clock
implementation itself is an external collaborator, out of scope. -/
def waitForNextCycle (cycle : Nat) : Nat := cycle + 1

/-- State of `emu6502::cpu::Memory`: the backing 64 KiB array (modelled as a
function from address to byte) plus the cycle counter of the attached clock. -/
structure Memory where
  clock : Nat
  mem : Nat → Nat

/-- The `Memory()` constructor: `mem.fill(0x55)`; the attached clock starts
at cycle 0. -/
def Memory.init : Memory := ⟨0, fun _ => 0x55⟩

/-- `Memory::Load(address)`: `clock->WaitForNextCycle(); return mem[address]`.
Returns the loaded byte together with the post-state. -/
def Memory.Load (m : Memory) (address : Nat) : Nat × Memory :=
  (m.mem address, { m with clock := waitForNextCycle m.clock })

/-- `Memory::Store(address, data)`: `clock->WaitForNextCycle();
mem[address] = data`. -/
def Memory.Store (m : Memory) (address data : Nat) : Memory :=
  { m with
    clock := waitForNextCycle m.clock
    mem := fun a => if a = address then data else m.mem a }

/-- `Memory::Write(addr, data)`: `std::copy(data.begin(), data.end(),
mem.begin() + addr)` — a bulk copy into the backing array, with no clock
interaction. -/
def Memory.Write (m : Memory) (addr : Nat) (data : List Nat) : Memory :=
  { m with
    mem := fun a =>
      if addr ≤ a ∧ a < addr + data.length then data.getD (a - addr) 0
      else m.mem a }

/-- `Memory::ReadRange(addr, len)`: copies `len` bytes starting at `addr`
out of the backing array; no clock interaction, no mutation (we return the
unchanged state to make that frame condition statable). -/
def Memory.ReadRange (m : Memory) (addr len : Nat) : List Nat × Memory :=
  ((List.range len).map (fun i => m.mem (addr + i)), m)

/-! ## Assembler data model (src/unnamed/part_000)

`Address_t` is `uint16_t`; all cursor/position arithmetic wraps mod 65536,
and every byte written to the image is reduced mod 256 (`uint8_t`). -/

/-- `enum class AddressMode` from the cpu_6502 opcode table (spec §4.1; the
enumeration is listed in `base_test.hpp` / the spec's address-mode matrix). -/
inductive AddressMode where
  | Implied
  | ACC
  | IM
  | ZP
  | ZPX
  | ZPY
  | ABS
  | ABSX
  | ABSY
  | ABS_IND
  | INDX
  | INDY
  | REL
deriving DecidableEq, Repr

/-- `enum class RelocationMode` (src/unnamed/part_000, lines 61–65). -/
inductive RelocationMode where
  | Absolute
  | Relative
  | ZeroPage
deriving DecidableEq, Repr

/-- `uint8_t RelocationSize(RelocationMode)` (declared in
src/unnamed/part_000 line 67); per spec §4.5 Absolute patches two bytes,
Relative and ZeroPage one. -/
def RelocationSize : RelocationMode → Nat
  | RelocationMode.Absolute => 2
  | RelocationMode.Relative => 1
  | RelocationMode.ZeroPage => 1

/-- `struct RelocationInfo` (src/unnamed/part_000 lines 69–76): target
symbol (by name), patch position, and mode. -/
structure RelocationInfo where
  target_label : String
  position : Nat
  mode : RelocationMode
deriving DecidableEq, Repr

/-- `LabelInfo` as used by `compilation_context.cpp` (the evolved form of
`SymbolInfo` from src/unnamed/part_000 lines 45–52): optional offset,
imported flag, and the list of relocations referencing this label. -/
structure LabelInfo where
  name : String
  offset : Option Nat
  imported : Bool
  label_references : List RelocationInfo
deriving DecidableEq, Repr

/-- Errors raised by the assembler operations embedded here. -/
inductive AsmError where
  | collision
  | duplicateLabel
  | relativeOutOfRange
  | variantSelection
deriving DecidableEq, Repr

/-- `struct SparseBinaryCode` (src/unnamed/part_000 lines 102–124): a
partial map from 16-bit address to byte, modelled as an association list. -/
structure SparseBinaryCode where
  sparse_map : List (Nat × Nat)
deriving DecidableEq, Repr

/-- Lookup in an association list (first binding wins). -/
def getCell : List (Nat × Nat) → Nat → Option Nat
  | [], _ => none
  | (k, v) :: rest, a => if k = a then some v else getCell rest a

/-- Update an association list: replace the first binding of the key, or
append a fresh binding. -/
def setCell : List (Nat × Nat) → Nat → Nat → List (Nat × Nat)
  | [], a, v => [(a, v)]
  | (k, w) :: rest, a, v =>
      if k = a then (k, v) :: rest else (k, w) :: setCell rest a v

/-- Modelled from the spec: `put_byte(A, v, overwrite?)` (§3 "Sparse image");
invariant: "writing an already-defined cell without `overwrite=true` is a
hard error".  `SparseBinaryCode::PutByte` is declared in src/unnamed/part_000
line 116 but its body is not under src/.  The address parameter is
`Address_t` and the value `uint8_t`, hence the reductions. -/
def PutByte (img : SparseBinaryCode) (address v : Nat) (overwrite : Bool) :
    Except AsmError SparseBinaryCode :=
  if (getCell img.sparse_map (address % 65536)).isSome && !overwrite then
    Except.error AsmError.collision
  else
    Except.ok ⟨setCell img.sparse_map (address % 65536) (v % 256)⟩

/-- Modelled from the spec: `put_bytes(A, v[])` (§3) writes the bytes at
consecutive addresses (16-bit wrap), each through `put_byte` with the same
overwrite flag.  `SparseBinaryCode::PutBytes` is declared in
src/unnamed/part_000 line 117 but its body is not under src/. -/
def PutBytes (img : SparseBinaryCode) :
    Nat → List Nat → Bool → Except AsmError SparseBinaryCode
  | _, [], _ => Except.ok img
  | a, b :: bs, ow => do
      let img2 ← PutByte img a b ow
      PutBytes img2 (a + 1) bs ow

/-- Little-endian byte pair of a 16-bit word: `ToBytes(Address_t)`
(byte_utils.hpp; spec §4.5 "bytes = target_offset & 0xFF,
target_offset >> 8"). -/
def toBytes16 (w : Nat) : List Nat := [w % 256, w / 256 % 256]

/-- Reinterpretation of a signed 8-bit value as an unsigned byte
(`delta as i8 as u8`, spec §4.5). -/
def i8u8 (d : Int) : Nat := (d % 256).toNat

/-- Modelled from the spec: `RelativeJumpOffset(position, target)` is
declared in src/unnamed/part_000 line 30 with no body under src/.  Spec §4.5:
for a Relative relocation at patch position `p`, `delta = target − (p + 1)`,
an error unless `delta ∈ [−128, 127]`; both callers in
`compilation_context.cpp` pass `p + 1` as `position`, so this function
computes `target − position` as a `NearOffset_t` (int8).  Arguments are
`Address_t`, hence the mod-65536 reductions. -/
def RelativeJumpOffset (position target : Nat) : Except AsmError Int :=
  if -128 ≤ ((target % 65536 : Nat) : Int) - ((position % 65536 : Nat) : Int) ∧
      ((target % 65536 : Nat) : Int) - ((position % 65536 : Nat) : Int) ≤ 127 then
    Except.ok (((target % 65536 : Nat) : Int) - ((position % 65536 : Nat) : Int))
  else Except.error AsmError.relativeOutOfRange

/-- The patch bytes a relocation writes for a given target offset, shared by
the two patch paths of `compilation_context.cpp`: `RelocateLabel`
(`if (rel->mode == Absolute) ToBytes(current_position) else
ToBytes(RelativeJumpOffset(rel->position + 1, current_position))`) and
`ProcessInstructionArgument(opcode, label)` (REL ⇒ relative byte, otherwise
absolute little-endian pair).  Both distinguish only Absolute versus
non-Absolute. -/
def encodePatch (mode : RelocationMode) (position target : Nat) :
    Except AsmError (List Nat) :=
  if mode = RelocationMode.Absolute then Except.ok (toBytes16 target)
  else do
    let d ← RelativeJumpOffset (position + 1) target
    pure [i8u8 d]

/-! ## Compilation context (compilation_context.cpp, inside
src/lib/cpu_6502/test/base_test.hpp) -/

/-- One entry of the opcode table consumed by the assembler
(`cpu6502::OpcodeInfo`): the opcode byte and its address mode (field name
`addres_mode` as in the source). -/
structure OpcodeInfo where
  opcode : Nat
  addres_mode : AddressMode
deriving DecidableEq, Repr

/-- The `Program` under construction (src/unnamed/part_000 lines 128–141, in
the `labels` form used by compilation_context.cpp): sparse image, label
table, relocation set. -/
structure Program where
  sparse_binary_code : SparseBinaryCode
  labels : List (String × LabelInfo)
  relocations : List RelocationInfo
deriving DecidableEq, Repr

/-- `CompilationContext`: the program being built plus the
`current_position` cursor (spec §4.4, initial value 0). -/
structure CompilationContext where
  program : Program
  current_position : Nat
deriving DecidableEq, Repr

/-- Lookup in the label table (`program.labels.find(name)`). -/
def lookupLabel : List (String × LabelInfo) → String → Option LabelInfo
  | [], _ => none
  | (k, v) :: rest, name => if k = name then some v else lookupLabel rest name

/-- Update the label table: replace the binding of `name`, or append one. -/
def setLabel : List (String × LabelInfo) → String → LabelInfo → List (String × LabelInfo)
  | [], name, l => [(name, l)]
  | (k, v) :: rest, name, l =>
      if k = name then (k, l) :: rest else (k, v) :: setLabel rest name l

/-- The loop body of `CompilationContext::RelocateLabel` (lines 322–334):
for each queued reference, write the patch bytes for the just-assigned
offset `current` with `overwrite = true`. -/
def relocateRefs (img : SparseBinaryCode) :
    List RelocationInfo → Nat → Except AsmError SparseBinaryCode
  | [], _ => Except.ok img
  | r :: rest, current => do
      let bs ← encodePatch r.mode r.position current
      let img2 ← PutBytes img r.position bs true
      relocateRefs img2 rest current

/-- `CompilationContext::AddLabel(name)` (lines 301–320): a fresh label is
defined at the cursor; an existing label is marked non-imported, a second
definition is an error, otherwise the offset is assigned and every queued
relocation is patched (`RelocateLabel`). -/
def AddLabel (ctx : CompilationContext) (name : String) :
    Except AsmError CompilationContext :=
  match lookupLabel ctx.program.labels name with
  | none =>
      Except.ok
        { ctx with
          program :=
            { ctx.program with
              labels := setLabel ctx.program.labels name
                ⟨name, some ctx.current_position, false, []⟩ } }
  | some l =>
      if l.offset.isSome then Except.error AsmError.duplicateLabel
      else do
        let img ← relocateRefs ctx.program.sparse_binary_code
          l.label_references ctx.current_position
        Except.ok
          { ctx with
            program :=
              { ctx.program with
                sparse_binary_code := img
                labels := setLabel ctx.program.labels name
                  { l with imported := false, offset := some ctx.current_position } } }

/-- The label record `ProcessInstructionArgument(opcode, label)` works on
(lines 405–418): the existing entry if the label was seen before, otherwise
a fresh one with `imported = true` and no offset ("ADDING LABEL FORWARD
REF"). -/
def labelForReference (labels : List (String × LabelInfo)) (label : String) :
    LabelInfo :=
  match lookupLabel labels label with
  | none => ⟨label, none, true, []⟩
  | some l => l

/-- The relocation mode chosen at lines 422–427: Relative exactly for the
`REL` address mode, Absolute for every other one. -/
def relocationModeFor (am : AddressMode) : RelocationMode :=
  if am = AddressMode.REL then RelocationMode.Relative
  else RelocationMode.Absolute

/-- `CompilationContext::ProcessInstructionArgument(opcode, label)` (lines
401–432): record a relocation at the cursor (appended both to the label's
`label_references` and to `program.relocations`), creating the label with
`imported = true` on first sight by reference; the emitted operand bytes use
the label's offset when known and the cursor as a placeholder otherwise
(`offset.value_or(current_position)`), encoded by `encodePatch` under the
chosen mode; they are written through `ProcessInstructionArgument(opcode,
data)` (`PutBytes` without overwrite, cursor advanced by the operand size). -/
def ProcessInstructionArgumentLabel (ctx : CompilationContext)
    (opcode : OpcodeInfo) (label : String) : Except AsmError CompilationContext :=
  (encodePatch (relocationModeFor opcode.addres_mode) ctx.current_position
      ((labelForReference ctx.program.labels label).offset.getD
        ctx.current_position)) >>= fun bs =>
    (PutBytes ctx.program.sparse_binary_code ctx.current_position bs false) >>=
      fun img =>
        Except.ok
          { program :=
              { sparse_binary_code := img
                labels := setLabel ctx.program.labels label
                  { labelForReference ctx.program.labels label with
                    label_references :=
                      (labelForReference ctx.program.labels label).label_references ++
                        [⟨label, ctx.current_position,
                          relocationModeFor opcode.addres_mode⟩] }
                relocations := ctx.program.relocations ++
                  [⟨label, ctx.current_position,
                    relocationModeFor opcode.addres_mode⟩] }
            current_position := (ctx.current_position + bs.length) % 65536 }

/-- `CompilationContext::ProcessInstructionArgument(opcode, data)` (lines
437–440): literal operand bytes at the cursor, cursor advanced by the size. -/
def ProcessInstructionArgumentData (ctx : CompilationContext)
    (data : List Nat) : Except AsmError CompilationContext := do
  let img ← PutBytes ctx.program.sparse_binary_code ctx.current_position data false
  Except.ok
    { ctx with
      program := { ctx.program with sparse_binary_code := img }
      current_position := (ctx.current_position + data.length) % 65536 }

/-- The filter applied by the label overload of
`CompilationContext::SelectInstuctionVariant` (lines 381–390):
`modes.erase(ZPX); modes.erase(ZPY); modes.erase(ZP)` — zero-page variants
are never selected for label arguments. -/
def removeZeroPageModes (modes : List AddressMode) : List AddressMode :=
  modes.filter fun m =>
    match m with
    | AddressMode.ZP => false
    | AddressMode.ZPX => false
    | AddressMode.ZPY => false
    | _ => true

/-- `SelectInstuctionVariant(modes, instruction, label)` (lines 381–390):
after erasing the zero-page modes, exactly one candidate must remain. -/
def SelectInstuctionVariantLabel (modes : List AddressMode) :
    Except AsmError AddressMode :=
  match removeZeroPageModes modes with
  | [a] => Except.ok a
  | _ => Except.error AsmError.variantSelection

/-- The candidate set built by `CompilationContext::ParseInstruction` (lines
347–358): `std::set_intersection` of the argument's possible address modes
with the mnemonic's supported modes, collected into a `std::set` (hence the
deduplication). -/
def modeIntersection (arg_modes instr_modes : List AddressMode) :
    List AddressMode :=
  (arg_modes.filter fun m => decide (m ∈ instr_modes)).dedup

/-- Mode selection for a label argument as performed by `ParseInstruction`:
intersect, then `SelectInstuctionVariant` with the label overload. -/
def selectLabelMode (arg_modes instr_modes : List AddressMode) :
    Except AsmError AddressMode :=
  SelectInstuctionVariantLabel (modeIntersection arg_modes instr_modes)

/-- The three shapes of instruction argument relevant to emission
(`ProcessInstructionArgument` overloads: `nullptr_t`, `vector<uint8_t>`,
`std::string`). -/
inductive InstrArg where
  | noArg
  | literal (data : List Nat)
  | labelRef (name : String)
deriving DecidableEq, Repr

/-- The emission tail of `CompilationContext::ParseInstruction` (lines
364–370): write the opcode byte at the cursor (`PutByte`, default
`overwrite = false`), advance by one, then process the argument. -/
def EmitInstruction (ctx : CompilationContext) (opcode : OpcodeInfo)
    (arg : InstrArg) : Except AsmError CompilationContext := do
  let img ← PutByte ctx.program.sparse_binary_code ctx.current_position
    opcode.opcode false
  let ctx2 : CompilationContext :=
    { ctx with
      program := { ctx.program with sparse_binary_code := img }
      current_position := (ctx.current_position + 1) % 65536 }
  match arg with
  | InstrArg.noArg => Except.ok ctx2
  | InstrArg.literal data => ProcessInstructionArgumentData ctx2 data
  | InstrArg.labelRef name => ProcessInstructionArgumentLabel ctx2 opcode name

/-- `CompilationContext::ParseByteCommand` (lines 278–284): one byte per
token at the cursor, cursor advanced by one each. -/
def ParseByteCommand (ctx : CompilationContext) :
    List Nat → Except AsmError CompilationContext
  | [] => Except.ok ctx
  | b :: rest => do
      let img ← PutBytes ctx.program.sparse_binary_code ctx.current_position
        [b % 256] false
      ParseByteCommand
        { ctx with
          program := { ctx.program with sparse_binary_code := img }
          current_position := (ctx.current_position + 1) % 65536 }
        rest

/-- `CompilationContext::ParseWordCommand` (lines 286–292): one little-endian
word per token, cursor advanced by two each. -/
def ParseWordCommand (ctx : CompilationContext) :
    List Nat → Except AsmError CompilationContext
  | [] => Except.ok ctx
  | w :: rest => do
      let img ← PutBytes ctx.program.sparse_binary_code ctx.current_position
        (toBytes16 (w % 65536)) false
      ParseWordCommand
        { ctx with
          program := { ctx.program with sparse_binary_code := img }
          current_position := (ctx.current_position + 2) % 65536 }
        rest

/-- One assembled source element, at the granularity the compilation context
processes them: a directive, a label definition, or an instruction. -/
inductive AsmOp where
  | org (w : Nat)
  | byteDirective (bs : List Nat)
  | wordDirective (ws : List Nat)
  | labelDef (name : String)
  | instruction (opcode : OpcodeInfo) (arg : InstrArg)
deriving DecidableEq, Repr

/-- Dispatch of one source element (`ParseOriginCommand` sets the cursor,
lines 294–299; the rest as embedded above). -/
def applyOp (ctx : CompilationContext) : AsmOp → Except AsmError CompilationContext
  | AsmOp.org w => Except.ok { ctx with current_position := w % 65536 }
  | AsmOp.byteDirective bs => ParseByteCommand ctx bs
  | AsmOp.wordDirective ws => ParseWordCommand ctx ws
  | AsmOp.labelDef name => AddLabel ctx name
  | AsmOp.instruction opcode arg => EmitInstruction ctx opcode arg

/-- Run a sequence of source elements. -/
def runOps (ctx : CompilationContext) : List AsmOp → Except AsmError CompilationContext
  | [] => Except.ok ctx
  | op :: rest => do
      let ctx2 ← applyOp ctx op
      runOps ctx2 rest

/-- The empty compilation context: empty program, cursor 0 (spec §4.4). -/
def initialContext : CompilationContext := ⟨⟨⟨[]⟩, [], []⟩, 0⟩

/-- Modelled from the spec: finalization (§4.4) — "any symbol whose
`imported = false` and `offset = None` is an undefined-symbol error".  The
finalization pass itself is not under src/; this returns the names of the
symbols it reports. -/
def finalizeUndefinedSymbols (ctx : CompilationContext) : List String :=
  (ctx.program.labels.filter fun p => !p.2.imported && p.2.offset.isNone).map
    fun p => p.1

/-! ## Derived notions used by the statements -/

/-- The image cells occupied by `n` consecutive bytes starting at `p`
(16-bit wrap, matching `PutBytes`). -/
def cells : Nat → Nat → List Nat
  | _, 0 => []
  | p, n + 1 => p % 65536 :: cells (p + 1) n

/-- The image cells a relocation patches. -/
def patchCells (r : RelocationInfo) : List Nat :=
  cells r.position (RelocationSize r.mode)

/-- Read `n` consecutive bytes of the sparse image starting at `p`; `none`
if any cell is undefined. -/
def readBytes (img : SparseBinaryCode) : Nat → Nat → Option (List Nat)
  | _, 0 => some []
  | p, n + 1 => do
      let b ← getCell img.sparse_map (p % 65536)
      let rest ← readBytes img (p + 1) n
      pure (b :: rest)

/-- Two relocations with disjoint patch sites. -/
def DisjointCells (r s : RelocationInfo) : Prop :=
  ∀ a ∈ patchCells r, a ∉ patchCells s

instance (r s : RelocationInfo) : Decidable (DisjointCells r s) := by
  unfold DisjointCells
  infer_instance

/-- Image evolution that keeps every defined cell with its value (what
non-overwriting writes do to cells they are not allowed to touch). -/
def DefinedPreserved (m m2 : List (Nat × Nat)) : Prop :=
  ∀ b v, getCell m b = some v → getCell m2 b = some v

/-- Spec §8 invariant 1 (and §3 "Program" invariant): every relocation whose
target symbol has a concrete offset carries, at its position in the sparse
image, exactly the bytes that encode that offset under its mode. -/
def RelocationsEncoded (ctx : CompilationContext) : Prop :=
  ∀ r ∈ ctx.program.relocations,
    ∀ l, lookupLabel ctx.program.labels r.target_label = some l →
      ∀ o, l.offset = some o →
        ∃ bs, encodePatch r.mode r.position o = Except.ok bs ∧
          readBytes ctx.program.sparse_binary_code r.position
            (RelocationSize r.mode) = some bs

/-- The bookkeeping invariant maintained by the compilation context; its
first field is the relocation-encoding invariant of the spec, the remaining
fields are the auxiliary facts needed to preserve it. -/
structure ContextInvariant (ctx : CompilationContext) : Prop where
  encoded : RelocationsEncoded ctx
  refsComplete : ∀ r ∈ ctx.program.relocations,
    ∃ l, lookupLabel ctx.program.labels r.target_label = some l ∧
      r ∈ l.label_references
  refsSound : ∀ name l, lookupLabel ctx.program.labels name = some l →
    ∀ r ∈ l.label_references,
      r ∈ ctx.program.relocations ∧ r.target_label = name
  cellsDefined : ∀ r ∈ ctx.program.relocations,
    ∀ a ∈ patchCells r, (getCell ctx.program.sparse_binary_code.sparse_map a).isSome
  disjointRel : ∀ r s, r ∈ ctx.program.relocations → s ∈ ctx.program.relocations →
    r ≠ s → DisjointCells r s
  refsNodup : ∀ name l, lookupLabel ctx.program.labels name = some l →
    l.label_references.Nodup

/-! ## Concrete programs used as witnesses -/

/-- The opcode-table entry for `JMP abs` (opcode 0x4C). -/
def jmpAbsOpcode : OpcodeInfo := ⟨0x4C, AddressMode.ABS⟩

/-- The opcode-table entry for `BEQ` (opcode 0xF0, REL mode). -/
def beqOpcode : OpcodeInfo := ⟨0xF0, AddressMode.REL⟩

/-- Spec scenario S6: the source `JMP missing` with no definition of
`missing`, at the element granularity of `applyOp`. -/
def jmpMissingOps : List AsmOp :=
  [AsmOp.instruction jmpAbsOpcode (InstrArg.labelRef "missing")]

/-- The context produced by assembling `JMP missing`. -/
def jmpMissingCtx : CompilationContext :=
  match runOps initialContext jmpMissingOps with
  | Except.ok c => c
  | Except.error _ => initialContext

/-- A program exercising both relocation flavours: a forward absolute
reference, the defining label, and a backward relative reference. -/
def patchDemoOps : List AsmOp :=
  [AsmOp.org 0x200,
   AsmOp.instruction jmpAbsOpcode (InstrArg.labelRef "L"),
   AsmOp.labelDef "L",
   AsmOp.instruction beqOpcode (InstrArg.labelRef "L"),
   AsmOp.byteDirective [0xEA]]

/-- The context produced by assembling `patchDemoOps`. -/
def patchDemoCtx : CompilationContext :=
  match runOps initialContext patchDemoOps with
  | Except.ok c => c
  | Except.error _ => initialContext

/-- A context holding one pending (offset-less) label with one queued
relocation, reached just before the label gets defined. -/
def pendingLabelCtx : CompilationContext :=
  match runOps initialContext
      [AsmOp.org 0x200,
       AsmOp.instruction jmpAbsOpcode (InstrArg.labelRef "L")] with
  | Except.ok c => c
  | Except.error _ => initialContext

/-- The pending label record held by `pendingLabelCtx` (offset still `none`,
one queued absolute relocation at 0x201). -/
def pendingL : LabelInfo :=
  ⟨"L", none, true, [⟨"L", 0x201, RelocationMode.Absolute⟩]⟩

/-- The context after defining `L` in `pendingLabelCtx`. -/
def definedLabelCtx : CompilationContext :=
  match AddLabel pendingLabelCtx "L" with
  | Except.ok c => c
  | Except.error _ => initialContext

/-- Result of processing a label operand of `JMP` from an empty program with
the cursor at 0x201. -/
def c3DemoCtx : CompilationContext :=
  match ProcessInstructionArgumentLabel ⟨⟨⟨[]⟩, [], []⟩, 0x201⟩ jmpAbsOpcode "L" with
  | Except.ok c => c
  | Except.error _ => initialContext

/-! ## Halt reporting (spec §4.2/§6; src/test/cpu/ct.cpp) -/

/-- The typed halt reasons named by the spec (§6 "CPU halt reporting"). -/
inductive HaltReason where
  | brk (pc : Nat)
  | timeout (cycles : Nat)
  | illegalOpcode (pc byteVal : Nat)
deriving DecidableEq, Repr

/-- Outcome of executing one instruction, as seen by the run loop: either a
successor state, a `BRK`, or an illegal opcode at `pc`. -/
inductive StepResult (σ : Type) where
  | next (s : σ)
  | brkHit (pc : Nat)
  | illegal (pc byteVal : Nat)

/-- Modelled from the spec: `execute_with_timeout(d)` (§4.2) "repeatedly
executes until (a) a BRK is hit, (b) duration `d` has elapsed in wall time,
or (c) an illegal opcode is encountered"; the wall-clock check happens at
instruction boundaries only (§5).  The CPU core's implementation is not
under src/, so the single-instruction step and the wall-clock predicate are
parameters; `fuel` bounds the unrolling, `none` meaning the run has not
halted within the bound. -/
def executeWithTimeout {σ : Type} (stepFn : σ → StepResult σ)
    (timedOut : Nat → Bool) (cyclesOf : σ → Nat) :
    Nat → σ → Nat → Option HaltReason
  | 0, _, _ => none
  | fuel + 1, s, n =>
      if timedOut n then some (HaltReason.timeout (cyclesOf s))
      else
        match stepFn s with
        | StepResult.next s2 => executeWithTimeout stepFn timedOut cyclesOf fuel s2 (n + 1)
        | StepResult.brkHit pc => some (HaltReason.brk pc)
        | StepResult.illegal pc b => some (HaltReason.illegalOpcode pc b)

/-- How a halt reaches the caller of `ExecuteWithTimeout`: as an ordinary
returned value, or as a thrown exception carrying the reason. -/
inductive HaltDelivery where
  | typedValue (r : HaltReason)
  | thrownException (r : HaltReason)
deriving DecidableEq, Repr

/-- From src/test/cpu/ct.cpp lines 132–139: the `CT.crc8` test wraps
`cpu.ExecuteWithTimeout(...)` in `try`/`catch`, fails (`FAIL() << "Exception
was expected"`) if no exception is thrown, and observes the BRK halt as a
caught `std::exception`.  The halt therefore reaches the caller as a thrown
exception. -/
def ctObservedDelivery (r : HaltReason) : HaltDelivery :=
  HaltDelivery.thrownException r

/-- Whether a delivery is a plainly returned typed value. -/
def deliveredAsTypedValue : HaltDelivery → Bool
  | HaltDelivery.typedValue _ => true
  | HaltDelivery.thrownException _ => false

/-! ## Helper lemmas about the sparse image -/

theorem getCell_setCell (m : List (Nat × Nat)) (a v b : Nat) :
    getCell (setCell m a v) b = if a = b then some v else getCell m b := by
  induction m with
  | nil =>
      by_cases h : a = b <;> simp [setCell, getCell, h]
  | cons kv rest ih =>
      obtain ⟨k, w⟩ := kv
      by_cases hk : k = a
      · subst hk
        by_cases h : k = b <;> simp [setCell, getCell, h]
      · by_cases h : k = b
        · subst h
          have : ¬a = k := fun hc => hk hc.symm
          simp [setCell, getCell, hk, this]
        · simp [setCell, getCell, hk, h, ih]

theorem putByte_ok_eq {img : SparseBinaryCode} {a v : Nat} {ow : Bool}
    {img2 : SparseBinaryCode} (h : PutByte img a v ow = Except.ok img2) :
    img2 = ⟨setCell img.sparse_map (a % 65536) (v % 256)⟩ := by
  unfold PutByte at h
  split at h
  · exact absurd h (by simp)
  · cases h
    rfl

theorem putByte_false_none {img : SparseBinaryCode} {a v : Nat}
    {img2 : SparseBinaryCode} (h : PutByte img a v false = Except.ok img2) :
    getCell img.sparse_map (a % 65536) = none := by
  unfold PutByte at h
  split at h
  · exact absurd h (by simp)
  · rename_i hc
    simp only [Bool.not_false, Bool.and_true] at hc
    cases he : getCell img.sparse_map (a % 65536)
    · rfl
    · exact absurd (by simp [he]) hc

theorem putByte_collision {img : SparseBinaryCode} {a v : Nat}
    (h : (getCell img.sparse_map (a % 65536)).isSome = true) :
    PutByte img a v false = Except.error AsmError.collision := by
  unfold PutByte
  simp [h]

theorem putByte_true_eq (img : SparseBinaryCode) (a v : Nat) :
    PutByte img a v true =
      Except.ok ⟨setCell img.sparse_map (a % 65536) (v % 256)⟩ := by
  unfold PutByte
  simp

theorem mem_cells {b : Nat} :
    ∀ {n p : Nat}, b ∈ cells p n ↔ ∃ i, i < n ∧ b = (p + i) % 65536 := by
  intro n
  induction n with
  | zero => intro p; simp [cells]
  | succ k ih =>
      intro p
      constructor
      · intro h
        rcases List.mem_cons.mp h with h0 | h0
        · exact ⟨0, Nat.succ_pos k, by simpa using h0⟩
        · rcases ih.mp h0 with ⟨i, hi, he⟩
          refine ⟨i + 1, by omega, ?_⟩
          rw [he]
          congr 1
          omega
      · rintro ⟨i, hi, he⟩
        cases i with
        | zero => exact List.mem_cons.mpr (Or.inl (by simpa using he))
        | succ j =>
            refine List.mem_cons.mpr (Or.inr (ih.mpr ⟨j, by omega, ?_⟩))
            rw [he]
            congr 1
            omega

theorem definedPreserved_refl (m : List (Nat × Nat)) : DefinedPreserved m m :=
  fun _ _ h => h

theorem definedPreserved_trans {m1 m2 m3 : List (Nat × Nat)}
    (h1 : DefinedPreserved m1 m2) (h2 : DefinedPreserved m2 m3) :
    DefinedPreserved m1 m3 :=
  fun b v h => h2 b v (h1 b v h)

theorem definedPreserved_isSome {m1 m2 : List (Nat × Nat)}
    (h : DefinedPreserved m1 m2) {b : Nat} (hb : (getCell m1 b).isSome = true) :
    (getCell m2 b).isSome = true := by
  rcases Option.isSome_iff_exists.mp hb with ⟨v, hv⟩
  exact Option.isSome_iff_exists.mpr ⟨v, h b v hv⟩

theorem putByte_false_definedPreserved {img : SparseBinaryCode} {a v : Nat}
    {img2 : SparseBinaryCode} (h : PutByte img a v false = Except.ok img2) :
    DefinedPreserved img.sparse_map img2.sparse_map := by
  have hn := putByte_false_none h
  have he := putByte_ok_eq h
  subst he
  intro b w hw
  rw [getCell_setCell]
  split
  · rename_i hab
    rw [← hab] at hw
    rw [hn] at hw
    cases hw
  · exact hw

theorem putBytes_false_definedPreserved :
    ∀ (bs : List Nat) (img : SparseBinaryCode) (a : Nat) (img2 : SparseBinaryCode),
      PutBytes img a bs false = Except.ok img2 →
      DefinedPreserved img.sparse_map img2.sparse_map := by
  intro bs
  induction bs with
  | nil =>
      intro img a img2 h
      cases h
      exact definedPreserved_refl _
  | cons b rest ih =>
      intro img a img2 h
      unfold PutBytes at h
      cases hb : PutByte img a b false with
      | error e => rw [hb] at h; cases h
      | ok img1 =>
          rw [hb] at h
          exact definedPreserved_trans (putByte_false_definedPreserved hb)
            (ih img1 (a + 1) img2 h)

theorem putBytes_ok_shape {ow : Bool} :
    ∀ (bs : List Nat) (img : SparseBinaryCode) (a : Nat) (img2 : SparseBinaryCode),
      PutBytes img a bs ow = Except.ok img2 →
      (∀ b, b ∉ cells a bs.length →
        getCell img2.sparse_map b = getCell img.sparse_map b) ∧
      (∀ b, (getCell img.sparse_map b).isSome = true →
        (getCell img2.sparse_map b).isSome = true) := by
  intro bs
  induction bs with
  | nil =>
      intro img a img2 h
      cases h
      exact ⟨fun _ _ => rfl, fun _ hb => hb⟩
  | cons b rest ih =>
      intro img a img2 h
      unfold PutBytes at h
      cases hb : PutByte img a b ow with
      | error e => rw [hb] at h; cases h
      | ok img1 =>
          rw [hb] at h
          have he := putByte_ok_eq hb
          rcases ih img1 (a + 1) img2 h with ⟨hout, hsome⟩
          constructor
          · intro c hc
            have hc1 : c ∉ cells (a + 1) rest.length := fun hm =>
              hc (List.mem_cons.mpr (Or.inr hm))
            have hc0 : c ≠ a % 65536 := by
              intro hm
              exact hc (by rw [hm]; exact List.mem_cons_self _ _)
            rw [hout c hc1, he]
            simp only [getCell_setCell]
            rw [if_neg (fun hx => hc0 hx.symm)]
          · intro c hc
            refine hsome c ?_
            rw [he]
            simp only [getCell_setCell]
            split
            · rfl
            · exact hc

theorem putBytes_false_cellsNone :
    ∀ (bs : List Nat) (img : SparseBinaryCode) (a : Nat) (img2 : SparseBinaryCode),
      PutBytes img a bs false = Except.ok img2 →
      ∀ b ∈ cells a bs.length, getCell img.sparse_map b = none := by
  intro bs
  induction bs with
  | nil => intro img a img2 _ b hb; simp [cells] at hb
  | cons b rest ih =>
      intro img a img2 h c hc
      unfold PutBytes at h
      cases hb : PutByte img a b false with
      | error e => rw [hb] at h; cases h
      | ok img1 =>
          rw [hb] at h
          rcases List.mem_cons.mp hc with h0 | h0
          · rw [h0]; exact putByte_false_none hb
          · have h1 := ih img1 (a + 1) img2 h c h0
            have he := putByte_ok_eq hb
            rw [he] at h1
            simp only [getCell_setCell] at h1
            by_cases hx : a % 65536 = c
            · rw [← hx]; exact putByte_false_none hb
            · rw [if_neg hx] at h1; exact h1

theorem optionBind_some {α β : Type} (v : α) (f : α → Option β) :
    (some v : Option α).bind f = f v := rfl

theorem optionBind_none {α β : Type} (f : α → Option β) :
    (none : Option α).bind f = none := rfl

theorem except_ok_bind {ε α β : Type} (v : α) (f : α → Except ε β) :
    ((Except.ok v : Except ε α) >>= f) = f v := rfl

theorem readBytes_succ (img : SparseBinaryCode) (p n : Nat) :
    readBytes img p (n + 1) =
      (getCell img.sparse_map (p % 65536)).bind fun b =>
        (readBytes img (p + 1) n).bind fun rest => some (b :: rest) := rfl

theorem readBytes_congr {img1 img2 : SparseBinaryCode} :
    ∀ {n p : Nat},
      (∀ b ∈ cells p n, getCell img2.sparse_map b = getCell img1.sparse_map b) →
      readBytes img2 p n = readBytes img1 p n := by
  intro n
  induction n with
  | zero => intro p _; rfl
  | succ k ih =>
      intro p h
      unfold readBytes
      rw [h (p % 65536) (List.mem_cons_self _ _),
        ih fun b hb => h b (List.mem_cons.mpr (Or.inr hb))]

theorem readBytes_definedPreserved {m1 m2 : List (Nat × Nat)}
    (hp : DefinedPreserved m1 m2) :
    ∀ {n p : Nat} {bs : List Nat},
      readBytes ⟨m1⟩ p n = some bs → readBytes ⟨m2⟩ p n = some bs := by
  intro n
  induction n with
  | zero => intro p bs h; exact h
  | succ k ih =>
      intro p bs h
      rw [readBytes_succ] at h ⊢
      cases hg : getCell m1 (p % 65536) with
      | none => rw [hg] at h; cases h
      | some v =>
          rw [hg, optionBind_some] at h
          cases hr : readBytes ⟨m1⟩ (p + 1) k with
          | none => rw [hr] at h; cases h
          | some rest =>
              rw [hr] at h
              rw [hp (p % 65536) v hg, optionBind_some, ih hr]
              exact h

theorem readBytes_isSome_cells {img : SparseBinaryCode} :
    ∀ {n p : Nat} {bs : List Nat}, readBytes img p n = some bs →
      ∀ b ∈ cells p n, (getCell img.sparse_map b).isSome = true := by
  intro n
  induction n with
  | zero => intro p bs _ b hb; simp [cells] at hb
  | succ k ih =>
      intro p bs h b hb
      rw [readBytes_succ] at h
      cases hg : getCell img.sparse_map (p % 65536) with
      | none => rw [hg] at h; cases h
      | some v =>
          rcases List.mem_cons.mp hb with h0 | h0
          · rw [h0, hg]; rfl
          · rw [hg, optionBind_some] at h
            cases hr : readBytes img (p + 1) k with
            | none => rw [hr] at h; cases h
            | some rest => exact ih hr b h0

theorem putBytes_false_readSelf :
    ∀ (bs : List Nat) (img : SparseBinaryCode) (a : Nat) (img2 : SparseBinaryCode),
      PutBytes img a bs false = Except.ok img2 →
      readBytes img2 a bs.length = some (bs.map (· % 256)) := by
  intro bs
  induction bs with
  | nil => intro img a img2 h; cases h; rfl
  | cons b rest ih =>
      intro img a img2 h
      unfold PutBytes at h
      cases hb : PutByte img a b false with
      | error e => rw [hb] at h; cases h
      | ok img1 =>
          rw [hb] at h
          have he := putByte_ok_eq hb
          have hhead : getCell img2.sparse_map (a % 65536) = some (b % 256) := by
            have h1 : getCell img1.sparse_map (a % 65536) = some (b % 256) := by
              rw [he]; simp [getCell_setCell]
            exact putBytes_false_definedPreserved rest img1 (a + 1) img2 h
              (a % 65536) (b % 256) h1
          simp only [List.length_cons]
          rw [readBytes_succ, hhead, optionBind_some,
            ih img1 (a + 1) img2 h]
          rfl

theorem putBytes_true_ok :
    ∀ (bs : List Nat) (img : SparseBinaryCode) (a : Nat),
      ∃ img2, PutBytes img a bs true = Except.ok img2 := by
  intro bs
  induction bs with
  | nil => intro img a; exact ⟨img, rfl⟩
  | cons b rest ih =>
      intro img a
      rcases ih ⟨setCell img.sparse_map (a % 65536) (b % 256)⟩ (a + 1) with ⟨img2, h2⟩
      refine ⟨img2, ?_⟩
      unfold PutBytes
      rw [putByte_true_eq]
      exact h2

theorem putBytes_true_readSelf :
    ∀ (bs : List Nat) (img : SparseBinaryCode) (a : Nat) (img2 : SparseBinaryCode),
      bs.length ≤ 65536 →
      PutBytes img a bs true = Except.ok img2 →
      readBytes img2 a bs.length = some (bs.map (· % 256)) := by
  intro bs
  induction bs with
  | nil => intro img a img2 _ h; cases h; rfl
  | cons b rest ih =>
      intro img a img2 hlen h
      unfold PutBytes at h
      rw [putByte_true_eq] at h
      have hout := (putBytes_ok_shape rest _ (a + 1) img2 h).1
      have hnotin : a % 65536 ∉ cells (a + 1) rest.length := by
        intro hm
        rcases mem_cells.mp hm with ⟨i, hi, he⟩
        have : rest.length ≤ 65535 := by
          simp only [List.length_cons] at hlen
          omega
        omega
      have hhead : getCell img2.sparse_map (a % 65536) = some (b % 256) := by
        rw [hout (a % 65536) hnotin]
        simp [getCell_setCell]
      simp only [List.length_cons]
      rw [readBytes_succ, hhead, optionBind_some,
        ih _ (a + 1) img2 (by simp only [List.length_cons] at hlen; omega) h]
      rfl

theorem encodePatch_length {mode : RelocationMode} {p t : Nat} {bs : List Nat}
    (h : encodePatch mode p t = Except.ok bs) : bs.length = RelocationSize mode := by
  unfold encodePatch at h
  split at h
  · rename_i hm
    cases h
    rw [hm]
    rfl
  · rename_i hm
    unfold RelativeJumpOffset at h
    split at h
    · cases h
      cases mode with
      | Absolute => exact absurd rfl hm
      | Relative => rfl
      | ZeroPage => rfl
    · cases h

theorem i8u8_lt (d : Int) : i8u8 d < 256 := by
  unfold i8u8
  have h1 : 0 ≤ d % 256 := Int.emod_nonneg d (by decide)
  have h2 : d % 256 < 256 := Int.emod_lt_of_pos d (by decide)
  omega

theorem encodePatch_map_mod {mode : RelocationMode} {p t : Nat} {bs : List Nat}
    (h : encodePatch mode p t = Except.ok bs) : bs.map (· % 256) = bs := by
  unfold encodePatch at h
  split at h
  · cases h
    unfold toBytes16
    simp [Nat.mod_mod_of_dvd]
  · unfold RelativeJumpOffset at h
    split at h
    · cases h
      simp only [List.map_cons, List.map_nil, List.cons.injEq, and_true]
      exact Nat.mod_eq_of_lt (i8u8_lt _)
    · cases h

theorem encodePatch_error_eq {mode : RelocationMode} {p t : Nat} {e : AsmError}
    (h : encodePatch mode p t = Except.error e) : e = AsmError.relativeOutOfRange := by
  unfold encodePatch at h
  split at h
  · cases h
  · unfold RelativeJumpOffset at h
    split at h
    · cases h
    · cases h
      rfl

theorem relocationSize_le_two (mode : RelocationMode) : RelocationSize mode ≤ 2 := by
  cases mode <;> simp [RelocationSize]

theorem relocationSize_pos (mode : RelocationMode) : 0 < RelocationSize mode := by
  cases mode <;> simp [RelocationSize]

theorem patchCells_eq_cells_of_len {r : RelocationInfo} {bs : List Nat}
    (h : encodePatch r.mode r.position t = Except.ok bs) :
    patchCells r = cells r.position bs.length := by
  rw [encodePatch_length h]
  rfl

theorem relocateRefs_sound :
    ∀ (refs : List RelocationInfo) (img : SparseBinaryCode) (current : Nat)
      (img2 : SparseBinaryCode),
      relocateRefs img refs current = Except.ok img2 →
      List.Pairwise DisjointCells refs →
      (∀ b, (getCell img.sparse_map b).isSome = true →
        (getCell img2.sparse_map b).isSome = true) ∧
      (∀ b, (∀ r ∈ refs, b ∉ patchCells r) →
        getCell img2.sparse_map b = getCell img.sparse_map b) ∧
      (∀ r ∈ refs, ∃ bs, encodePatch r.mode r.position current = Except.ok bs ∧
        readBytes img2 r.position (RelocationSize r.mode) = some bs) := by
  intro refs
  induction refs with
  | nil =>
      intro img current img2 h _
      cases h
      exact ⟨fun _ hb => hb, fun _ _ => rfl, fun r hr => absurd hr (List.not_mem_nil r)⟩
  | cons r rest ih =>
      intro img current img2 h hpw
      rcases List.pairwise_cons.mp hpw with ⟨hdisj, hpw2⟩
      unfold relocateRefs at h
      cases hbs : encodePatch r.mode r.position current with
      | error e => rw [hbs] at h; cases h
      | ok bs =>
          rw [hbs] at h
          rw [except_ok_bind] at h
          cases h1 : PutBytes img r.position bs true with
          | error e => rw [h1] at h; cases h
          | ok img1 =>
              rw [h1] at h
              rw [except_ok_bind] at h
              rcases ih img1 current img2 h hpw2 with ⟨ihSome, ihOut, ihRefs⟩
              have hshape := putBytes_ok_shape bs img r.position img1 h1
              have hlen : bs.length = RelocationSize r.mode := encodePatch_length hbs
              have hcells : patchCells r = cells r.position bs.length :=
                patchCells_eq_cells_of_len hbs
              refine ⟨?_, ?_, ?_⟩
              · intro b hb
                exact ihSome b (hshape.2 b hb)
              · intro b hb
                have hb0 : b ∉ patchCells r := hb r (List.mem_cons_self _ _)
                rw [ihOut b fun s hs => hb s (List.mem_cons.mpr (Or.inr hs))]
                rw [hshape.1 b (by rw [← hcells]; exact hb0)]
              · intro s hs
                rcases List.mem_cons.mp hs with h0 | h0
                · subst h0
                  refine ⟨bs, hbs, ?_⟩
                  have hr1 : readBytes img1 s.position bs.length =
                      some (bs.map (· % 256)) :=
                    putBytes_true_readSelf bs img s.position img1
                      (by rw [hlen]; exact le_trans (relocationSize_le_two _) (by omega)) h1
                  have hsame : ∀ b ∈ cells s.position bs.length,
                      getCell img2.sparse_map b = getCell img1.sparse_map b := by
                    intro b hb
                    refine ihOut b ?_
                    intro u hu
                    have := hdisj u hu
                    exact fun hc => this b (by rw [hcells]; exact hb) hc
                  rw [hlen] at hr1 hsame
                  rw [readBytes_congr hsame, hr1, encodePatch_map_mod hbs]
                · exact ihRefs s h0

theorem relocateRefs_error :
    ∀ (refs : List RelocationInfo) (img : SparseBinaryCode) (current : Nat)
      (e : AsmError),
      relocateRefs img refs current = Except.error e →
      e = AsmError.relativeOutOfRange := by
  intro refs
  induction refs with
  | nil => intro img current e h; cases h
  | cons r rest ih =>
      intro img current e h
      unfold relocateRefs at h
      cases hbs : encodePatch r.mode r.position current with
      | error e2 =>
          rw [hbs] at h
          cases h
          exact encodePatch_error_eq hbs
      | ok bs =>
          rw [hbs, except_ok_bind] at h
          rcases putBytes_true_ok bs img r.position with ⟨img1, h1⟩
          rw [h1, except_ok_bind] at h
          exact ih img1 current e h

theorem lookupLabel_setLabel (m : List (String × LabelInfo)) (k : String)
    (l : LabelInfo) (k2 : String) :
    lookupLabel (setLabel m k l) k2 = if k = k2 then some l else lookupLabel m k2 := by
  induction m with
  | nil =>
      by_cases h : k = k2 <;> simp [setLabel, lookupLabel, h]
  | cons kv rest ih =>
      obtain ⟨k1, v1⟩ := kv
      by_cases hk : k1 = k
      · subst hk
        by_cases h : k1 = k2 <;> simp [setLabel, lookupLabel, h]
      · by_cases h : k1 = k2
        · subst h
          have : ¬k = k1 := fun hc => hk hc.symm
          simp [setLabel, lookupLabel, hk, this]
        · simp [setLabel, lookupLabel, hk, h, ih]

/-! ## Invariant preservation through the compilation-context operations -/

theorem contextInvariant_definedPreserved {ctx : CompilationContext}
    {img2 : SparseBinaryCode} {pos2 : Nat}
    (inv : ContextInvariant ctx)
    (hp : DefinedPreserved ctx.program.sparse_binary_code.sparse_map img2.sparse_map) :
    ContextInvariant
      ⟨⟨img2, ctx.program.labels, ctx.program.relocations⟩, pos2⟩ := by
  refine ⟨?_, inv.refsComplete, inv.refsSound, ?_, inv.disjointRel, inv.refsNodup⟩
  · intro r hr l hl o ho
    rcases inv.encoded r hr l hl o ho with ⟨bs, h1, h2⟩
    refine ⟨bs, h1, ?_⟩
    exact readBytes_definedPreserved hp h2
  · intro r hr a ha
    exact definedPreserved_isSome hp (inv.cellsDefined r hr a ha)

theorem ParseByteCommand_preserves :
    ∀ (bs : List Nat) (ctx ctx2 : CompilationContext),
      ContextInvariant ctx → ParseByteCommand ctx bs = Except.ok ctx2 →
      ContextInvariant ctx2 := by
  intro bs
  induction bs with
  | nil =>
      intro ctx ctx2 inv h
      cases h
      exact inv
  | cons b rest ih =>
      intro ctx ctx2 inv h
      unfold ParseByteCommand at h
      cases h1 : PutBytes ctx.program.sparse_binary_code ctx.current_position
          [b % 256] false with
      | error e => rw [h1] at h; cases h
      | ok img1 =>
          rw [h1, except_ok_bind] at h
          exact ih _ ctx2
            (contextInvariant_definedPreserved inv
              (putBytes_false_definedPreserved _ _ _ _ h1)) h

theorem ParseWordCommand_preserves :
    ∀ (ws : List Nat) (ctx ctx2 : CompilationContext),
      ContextInvariant ctx → ParseWordCommand ctx ws = Except.ok ctx2 →
      ContextInvariant ctx2 := by
  intro ws
  induction ws with
  | nil =>
      intro ctx ctx2 inv h
      cases h
      exact inv
  | cons w rest ih =>
      intro ctx ctx2 inv h
      unfold ParseWordCommand at h
      cases h1 : PutBytes ctx.program.sparse_binary_code ctx.current_position
          (toBytes16 (w % 65536)) false with
      | error e => rw [h1] at h; cases h
      | ok img1 =>
          rw [h1, except_ok_bind] at h
          exact ih _ ctx2
            (contextInvariant_definedPreserved inv
              (putBytes_false_definedPreserved _ _ _ _ h1)) h

theorem pairwise_disjoint_of_nodup {rel : List RelocationInfo} :
    ∀ (xs : List RelocationInfo), xs.Nodup → (∀ x ∈ xs, x ∈ rel) →
      (∀ r s, r ∈ rel → s ∈ rel → r ≠ s → DisjointCells r s) →
      xs.Pairwise DisjointCells := by
  intro xs
  induction xs with
  | nil => intro _ _ _; exact List.Pairwise.nil
  | cons x rest ih =>
      intro hnd hmem hdis
      rcases List.pairwise_cons.mp hnd with ⟨hx, hnd2⟩
      refine List.pairwise_cons.mpr ⟨?_, ?_⟩
      · intro s hs
        exact hdis x s (hmem x (List.mem_cons_self _ _))
          (hmem s (List.mem_cons.mpr (Or.inr hs))) (hx s hs)
      · exact ih hnd2 (fun y hy => hmem y (List.mem_cons.mpr (Or.inr hy))) hdis

theorem AddLabel_preserves {ctx ctx2 : CompilationContext} {name : String}
    (inv : ContextInvariant ctx) (h : AddLabel ctx name = Except.ok ctx2) :
    ContextInvariant ctx2 := by
  unfold AddLabel at h
  split at h
  case _ hlk =>
      cases h
      refine ⟨?_, ?_, ?_, inv.cellsDefined, inv.disjointRel, ?_⟩
      · intro r hr l hl o ho
        by_cases ht : name = r.target_label
        · rcases inv.refsComplete r hr with ⟨l0, hl0, _⟩
          rw [← ht, hlk] at hl0
          cases hl0
        · rw [lookupLabel_setLabel, if_neg ht] at hl
          exact inv.encoded r hr l hl o ho
      · intro r hr
        rcases inv.refsComplete r hr with ⟨l0, hl0, hmem⟩
        by_cases ht : name = r.target_label
        · rw [← ht, hlk] at hl0
          cases hl0
        · exact ⟨l0, by rw [lookupLabel_setLabel, if_neg ht]; exact hl0, hmem⟩
      · intro n2 l hl r hr
        rw [lookupLabel_setLabel] at hl
        split at hl
        · cases hl
          simp at hr
        · exact inv.refsSound n2 l hl r hr
      · intro n2 l hl
        rw [lookupLabel_setLabel] at hl
        split at hl
        · cases hl
          exact List.nodup_nil
        · exact inv.refsNodup n2 l hl
  case _ l hlk =>
      split at h
      · cases h
      · rename_i hnotSome
        have hoff : l.offset = none := by
          cases ho : l.offset
          · rfl
          · exact absurd (by rw [ho]; rfl) hnotSome
        cases hrel : relocateRefs ctx.program.sparse_binary_code
            l.label_references ctx.current_position with
        | error e => rw [hrel] at h; cases h
        | ok img2 =>
            rw [hrel, except_ok_bind] at h
            cases h
            have hrefsRel : ∀ r ∈ l.label_references,
                r ∈ ctx.program.relocations ∧ r.target_label = name :=
              inv.refsSound name l hlk
            have hpw : l.label_references.Pairwise DisjointCells :=
              pairwise_disjoint_of_nodup l.label_references
                (inv.refsNodup name l hlk)
                (fun x hx => (hrefsRel x hx).1) inv.disjointRel
            rcases relocateRefs_sound l.label_references
                ctx.program.sparse_binary_code ctx.current_position img2
                hrel hpw with ⟨hSome, hOut, hRefs⟩
            refine ⟨?_, ?_, ?_, ?_, inv.disjointRel, ?_⟩
            · -- encoded
              intro r hr l2 hl2 o ho
              by_cases ht : name = r.target_label
              · rw [← ht, lookupLabel_setLabel, if_pos rfl] at hl2
                cases hl2
                simp only at ho
                cases ho
                rcases inv.refsComplete r hr with ⟨l0, hl0, hmem⟩
                rw [← ht, hlk] at hl0
                cases hl0
                exact hRefs r hmem
              · rw [lookupLabel_setLabel, if_neg ht] at hl2
                rcases inv.encoded r hr l2 hl2 o ho with ⟨bs, h1, h2⟩
                refine ⟨bs, h1, ?_⟩
                have hsame : ∀ b ∈ cells r.position (RelocationSize r.mode),
                    getCell img2.sparse_map b =
                      getCell ctx.program.sparse_binary_code.sparse_map b := by
                  intro b hb
                  refine hOut b ?_
                  intro s hsmem hbs
                  have hs := hrefsRel s hsmem
                  have hne : r ≠ s := by
                    intro he
                    rw [he] at ht
                    exact ht hs.2.symm
                  exact (inv.disjointRel s r hs.1 hr (fun he => hne he.symm)) b hbs
                    (by exact hb)
                rw [readBytes_congr hsame]
                exact h2
            · -- refsComplete
              intro r hr
              rcases inv.refsComplete r hr with ⟨l0, hl0, hmem⟩
              by_cases ht : name = r.target_label
              · rw [← ht, hlk] at hl0
                cases hl0
                exact ⟨{ l with imported := false, offset := some ctx.current_position },
                  by rw [← ht, lookupLabel_setLabel, if_pos rfl], hmem⟩
              · exact ⟨l0, by rw [lookupLabel_setLabel, if_neg ht]; exact hl0, hmem⟩
            · -- refsSound
              intro n2 l2 hl2 r hr
              rw [lookupLabel_setLabel] at hl2
              by_cases hn : name = n2
              · rw [if_pos hn] at hl2
                cases hl2
                subst hn
                exact hrefsRel r hr
              · rw [if_neg hn] at hl2
                exact inv.refsSound n2 l2 hl2 r hr
            · -- cellsDefined
              intro r hr a ha
              exact hSome a (inv.cellsDefined r hr a ha)
            · -- refsNodup
              intro n2 l2 hl2
              rw [lookupLabel_setLabel] at hl2
              by_cases hn : name = n2
              · rw [if_pos hn] at hl2
                cases hl2
                exact inv.refsNodup name l hlk
              · rw [if_neg hn] at hl2
                exact inv.refsNodup n2 l2 hl2

theorem PIALabel_preserves {ctx ctx2 : CompilationContext}
    {opcode : OpcodeInfo} {label : String}
    (inv : ContextInvariant ctx)
    (h : ProcessInstructionArgumentLabel ctx opcode label = Except.ok ctx2) :
    ContextInvariant ctx2 := by
  unfold ProcessInstructionArgumentLabel at h
  cases hbs : encodePatch (relocationModeFor opcode.addres_mode)
      ctx.current_position
      ((labelForReference ctx.program.labels label).offset.getD
        ctx.current_position) with
  | error e => rw [hbs] at h; cases h
  | ok bs =>
      rw [hbs, except_ok_bind] at h
      cases himg : PutBytes ctx.program.sparse_binary_code ctx.current_position
          bs false with
      | error e => rw [himg] at h; cases h
      | ok img2 =>
          rw [himg, except_ok_bind] at h
          cases h
          -- shared facts
          have fdp : DefinedPreserved ctx.program.sparse_binary_code.sparse_map
              img2.sparse_map :=
            putBytes_false_definedPreserved bs _ _ _ himg
          have fnone : ∀ b ∈ cells ctx.current_position bs.length,
              getCell ctx.program.sparse_binary_code.sparse_map b = none :=
            putBytes_false_cellsNone bs _ _ _ himg
          have fread : readBytes img2 ctx.current_position bs.length = some bs := by
            rw [putBytes_false_readSelf bs _ _ _ himg, encodePatch_map_mod hbs]
          have flen : bs.length =
              RelocationSize (relocationModeFor opcode.addres_mode) :=
            encodePatch_length hbs
          have fcells : patchCells
              (⟨label, ctx.current_position, relocationModeFor opcode.addres_mode⟩ :
                RelocationInfo) = cells ctx.current_position bs.length := by
            unfold patchCells
            rw [flen]
          have fnotin :
              (⟨label, ctx.current_position, relocationModeFor opcode.addres_mode⟩ :
                RelocationInfo) ∉ ctx.program.relocations := by
            intro hmem
            have hpos0 : 0 < bs.length := by
              rw [flen]; exact relocationSize_pos _
            have hmem0 : ctx.current_position % 65536 ∈
                cells ctx.current_position bs.length :=
              mem_cells.mpr ⟨0, hpos0, by simp⟩
            have hd := inv.cellsDefined _ hmem (ctx.current_position % 65536)
              (by rw [fcells]; exact hmem0)
            rw [fnone _ hmem0] at hd
            cases hd
          have fdisj : ∀ s ∈ ctx.program.relocations,
              DisjointCells s
                ⟨label, ctx.current_position, relocationModeFor opcode.addres_mode⟩ ∧
              DisjointCells
                ⟨label, ctx.current_position, relocationModeFor opcode.addres_mode⟩ s := by
            intro s hs
            constructor
            · intro a ha hc
              have hd := inv.cellsDefined s hs a ha
              rw [fnone a (by rw [← fcells]; exact hc)] at hd
              cases hd
            · intro a ha hc
              have hd := inv.cellsDefined s hs a hc
              rw [fnone a (by rw [← fcells]; exact ha)] at hd
              cases hd
          -- facts about the referenced label record
          have F1 : ∀ s ∈ ctx.program.relocations, s.target_label = label →
              lookupLabel ctx.program.labels label =
                some (labelForReference ctx.program.labels label) := by
            intro s hs ht
            rcases inv.refsComplete s hs with ⟨lx, hlx, _⟩
            rw [ht] at hlx
            unfold labelForReference
            rw [hlx]
          have F1o : ∀ o, (labelForReference ctx.program.labels label).offset = some o →
              lookupLabel ctx.program.labels label =
                some (labelForReference ctx.program.labels label) := by
            intro o ho
            unfold labelForReference at ho ⊢
            cases hlk : lookupLabel ctx.program.labels label with
            | none => rw [hlk] at ho; cases ho
            | some l => rfl
          have F2 : (labelForReference ctx.program.labels label).label_references.Nodup := by
            unfold labelForReference
            cases hlk : lookupLabel ctx.program.labels label with
            | none => exact List.nodup_nil
            | some l => exact inv.refsNodup label l hlk
          have F3 : ∀ x ∈ (labelForReference ctx.program.labels label).label_references,
              x ∈ ctx.program.relocations ∧ x.target_label = label := by
            unfold labelForReference
            cases hlk : lookupLabel ctx.program.labels label with
            | none => intro x hx; simp at hx
            | some l => exact inv.refsSound label l hlk
          refine ⟨?_, ?_, ?_, ?_, ?_, ?_⟩
          · -- encoded
            intro s hs l3 hl3 o ho
            rcases List.mem_append.mp hs with hsrel | hsr
            · by_cases ht : label = s.target_label
              · rw [← ht, lookupLabel_setLabel, if_pos rfl] at hl3
                cases hl3
                simp only at ho
                rcases inv.encoded s hsrel _ (by rw [← ht]; exact F1o o ho) o ho with
                  ⟨bs', h1, h2⟩
                exact ⟨bs', h1, readBytes_definedPreserved fdp h2⟩
              · rw [lookupLabel_setLabel, if_neg ht] at hl3
                rcases inv.encoded s hsrel l3 hl3 o ho with ⟨bs', h1, h2⟩
                exact ⟨bs', h1, readBytes_definedPreserved fdp h2⟩
            · obtain rfl := List.mem_singleton.mp hsr
              rw [lookupLabel_setLabel, if_pos rfl] at hl3
              cases hl3
              have ho2 : (labelForReference ctx.program.labels label).offset =
                  some o := ho
              have hgd : (labelForReference ctx.program.labels label).offset.getD
                  ctx.current_position = o := by rw [ho2]; rfl
              rw [hgd] at hbs
              refine ⟨bs, hbs, ?_⟩
              show readBytes img2 ctx.current_position
                (RelocationSize (relocationModeFor opcode.addres_mode)) = some bs
              rw [← flen]
              exact fread
          · -- refsComplete
            intro s hs
            rcases List.mem_append.mp hs with hsrel | hsr
            · rcases inv.refsComplete s hsrel with ⟨lx, hlx, hmx⟩
              by_cases ht : label = s.target_label
              · have hx := F1 s hsrel ht.symm
                rw [← ht] at hlx
                rw [hx] at hlx
                cases hlx
                refine ⟨{ labelForReference ctx.program.labels label with
                  label_references :=
                    (labelForReference ctx.program.labels label).label_references ++
                      [⟨label, ctx.current_position,
                        relocationModeFor opcode.addres_mode⟩] }, ?_, ?_⟩
                · rw [← ht, lookupLabel_setLabel, if_pos rfl]
                · exact List.mem_append.mpr (Or.inl hmx)
              · exact ⟨lx, by rw [lookupLabel_setLabel, if_neg ht]; exact hlx, hmx⟩
            · obtain rfl := List.mem_singleton.mp hsr
              refine ⟨_, by rw [lookupLabel_setLabel, if_pos rfl], ?_⟩
              exact List.mem_append.mpr (Or.inr (List.mem_singleton.mpr rfl))
          · -- refsSound
            intro n2 l3 hl3 s hs
            rw [lookupLabel_setLabel] at hl3
            by_cases hn : label = n2
            · rw [if_pos hn] at hl3
              cases hl3
              simp only at hs
              rcases List.mem_append.mp hs with hsl | hsr
              · rcases F3 s hsl with ⟨h1, h2⟩
                exact ⟨List.mem_append.mpr (Or.inl h1), by rw [h2, hn]⟩
              · obtain rfl := List.mem_singleton.mp hsr
                exact ⟨List.mem_append.mpr (Or.inr (List.mem_singleton.mpr rfl)), hn⟩
            · rw [if_neg hn] at hl3
              rcases inv.refsSound n2 l3 hl3 s hs with ⟨h1, h2⟩
              exact ⟨List.mem_append.mpr (Or.inl h1), h2⟩
          · -- cellsDefined
            intro s hs a ha
            rcases List.mem_append.mp hs with hsrel | hsr
            · exact definedPreserved_isSome fdp (inv.cellsDefined s hsrel a ha)
            · obtain rfl := List.mem_singleton.mp hsr
              rw [fcells] at ha
              exact readBytes_isSome_cells fread a ha
          · -- disjointRel
            intro s t hsmem htmem hne
            rcases List.mem_append.mp hsmem with hs | hs <;>
              rcases List.mem_append.mp htmem with ht | ht
            · exact inv.disjointRel s t hs ht hne
            · obtain rfl := List.mem_singleton.mp ht
              exact (fdisj s hs).1
            · obtain rfl := List.mem_singleton.mp hs
              exact (fdisj t ht).2
            · obtain rfl := List.mem_singleton.mp hs
              obtain rfl := List.mem_singleton.mp ht
              exact absurd rfl hne
          · -- refsNodup
            intro n2 l3 hl3
            rw [lookupLabel_setLabel] at hl3
            by_cases hn : label = n2
            · rw [if_pos hn] at hl3
              cases hl3
              simp only
              rw [List.nodup_append]
              refine ⟨F2, List.nodup_singleton _, ?_⟩
              intro x hx hx2
              rw [List.mem_singleton.mp hx2] at hx
              exact fnotin (F3 _ hx).1
            · rw [if_neg hn] at hl3
              exact inv.refsNodup n2 l3 hl3

theorem PIAData_preserves {ctx ctx2 : CompilationContext} {data : List Nat}
    (inv : ContextInvariant ctx)
    (h : ProcessInstructionArgumentData ctx data = Except.ok ctx2) :
    ContextInvariant ctx2 := by
  unfold ProcessInstructionArgumentData at h
  cases himg : PutBytes ctx.program.sparse_binary_code ctx.current_position
      data false with
  | error e => rw [himg] at h; cases h
  | ok img2 =>
      rw [himg, except_ok_bind] at h
      cases h
      exact contextInvariant_definedPreserved inv
        (putBytes_false_definedPreserved data _ _ _ himg)

theorem EmitInstruction_preserves {ctx ctx2 : CompilationContext}
    {opcode : OpcodeInfo} {arg : InstrArg}
    (inv : ContextInvariant ctx)
    (h : EmitInstruction ctx opcode arg = Except.ok ctx2) :
    ContextInvariant ctx2 := by
  unfold EmitInstruction at h
  cases himg : PutByte ctx.program.sparse_binary_code ctx.current_position
      opcode.opcode false with
  | error e => rw [himg] at h; cases h
  | ok img1 =>
      rw [himg, except_ok_bind] at h
      have inv1 : ContextInvariant
          ⟨⟨img1, ctx.program.labels, ctx.program.relocations⟩,
            (ctx.current_position + 1) % 65536⟩ :=
        contextInvariant_definedPreserved inv (putByte_false_definedPreserved himg)
      cases arg with
      | noArg => cases h; exact inv1
      | literal data => exact PIAData_preserves inv1 h
      | labelRef name => exact PIALabel_preserves inv1 h

theorem applyOp_preserves {ctx ctx2 : CompilationContext} {op : AsmOp}
    (inv : ContextInvariant ctx) (h : applyOp ctx op = Except.ok ctx2) :
    ContextInvariant ctx2 := by
  cases op with
  | org w =>
      cases h
      exact ⟨inv.encoded, inv.refsComplete, inv.refsSound, inv.cellsDefined,
        inv.disjointRel, inv.refsNodup⟩
  | byteDirective bs => exact ParseByteCommand_preserves bs ctx ctx2 inv h
  | wordDirective ws => exact ParseWordCommand_preserves ws ctx ctx2 inv h
  | labelDef name => exact AddLabel_preserves inv h
  | instruction opcode arg => exact EmitInstruction_preserves inv h

theorem runOps_preserves :
    ∀ (ops : List AsmOp) (ctx ctx2 : CompilationContext),
      ContextInvariant ctx → runOps ctx ops = Except.ok ctx2 →
      ContextInvariant ctx2 := by
  intro ops
  induction ops with
  | nil =>
      intro ctx ctx2 inv h
      cases h
      exact inv
  | cons op rest ih =>
      intro ctx ctx2 inv h
      unfold runOps at h
      cases h1 : applyOp ctx op with
      | error e => rw [h1] at h; cases h
      | ok ctx1 =>
          rw [h1, except_ok_bind] at h
          exact ih ctx1 ctx2 (applyOp_preserves inv h1) h

theorem initialContext_invariant : ContextInvariant initialContext := by
  refine ⟨?_, ?_, ?_, ?_, ?_, ?_⟩
  · intro r hr
    cases hr
  · intro r hr
    cases hr
  · intro name l hl
    cases hl
  · intro r hr
    cases hr
  · intro r s hr
    cases hr
  · intro name l hl
    cases hl

/-! ## Claim theorems -/

/-- C8: every single-byte bus access by the CPU — each `Load(address)` and
each `Store(address, byte)` — advances the clock by exactly one tick (one
`WaitForNextCycle` call per access), for every 16-bit address. -/
theorem load_store_advance_clock_one_tick :
    ∀ (m : Memory) (address data : Nat),
      (m.Load address).2.clock = m.clock + 1 ∧
      (m.Store address data).clock = m.clock + 1 ∧
      (m.Load address).2.clock = waitForNextCycle m.clock ∧
      (m.Store address data).clock = waitForNextCycle m.clock :=
  fun _ _ _ => ⟨rfl, rfl, rfl, rfl⟩

/-- C10: the bulk operations `Write(addr, data)` and `ReadRange(addr, len)`
copy bytes directly into or out of the backing array and leave the clock
unchanged (no `WaitForNextCycle` call), unlike the per-byte `Load`/`Store`. -/
theorem bulk_ops_leave_clock_unchanged :
    ∀ (m : Memory) (addr len : Nat) (data : List Nat),
      (m.Write addr data).clock = m.clock ∧
      (m.ReadRange addr len).2 = m ∧
      (m.ReadRange addr len).1 =
        (List.range len).map (fun i => m.mem (addr + i)) ∧
      (∀ i, i < data.length → (m.Write addr data).mem (addr + i) = data.getD i 0) ∧
      (∀ a, a < addr ∨ addr + data.length ≤ a →
        (m.Write addr data).mem a = m.mem a) := by
  intro m addr len data
  refine ⟨rfl, rfl, rfl, ?_, ?_⟩
  · intro i hi
    show (if addr ≤ addr + i ∧ addr + i < addr + data.length then
        data.getD (addr + i - addr) 0
      else m.mem (addr + i)) = data.getD i 0
    rw [if_pos ⟨Nat.le_add_right _ _, by omega⟩]
    congr 1
    omega
  · intro a ha
    show (if addr ≤ a ∧ a < addr + data.length then data.getD (a - addr) 0
      else m.mem a) = m.mem a
    rw [if_neg (by omega)]

/-- Witness for C10 at a concrete memory: the second byte written lands at
`addr + 1` and an address outside the written range is untouched. -/
theorem bulk_ops_leave_clock_unchanged_witness :
    (Memory.Write Memory.init 5 [9, 8]).mem (5 + 1) = [9, 8].getD 1 0 ∧
    (Memory.Write Memory.init 5 [9, 8]).mem 99 = Memory.init.mem 99 :=
  ⟨(bulk_ops_leave_clock_unchanged Memory.init 5 0 [9, 8]).2.2.2.1 1 (by decide),
   (bulk_ops_leave_clock_unchanged Memory.init 5 0 [9, 8]).2.2.2.2 99 (by decide)⟩

/-- C2: for a Relative-mode relocation the patched byte equals
`delta = target − (position + 1)` reinterpreted as an unsigned byte, it is
an error exactly when `delta ∉ [−128, 127]`, and at the boundaries a delta
of +127 or −128 succeeds while +128 is a relocation error. -/
theorem relative_patch_byte_and_range :
    (∀ position target : Nat, position + 1 < 65536 → target < 65536 →
      (-128 ≤ (target : Int) - ((position : Int) + 1) ∧
          (target : Int) - ((position : Int) + 1) ≤ 127 →
        encodePatch RelocationMode.Relative position target =
          Except.ok [i8u8 ((target : Int) - ((position : Int) + 1))]) ∧
      ((target : Int) - ((position : Int) + 1) < -128 ∨
          127 < (target : Int) - ((position : Int) + 1) →
        encodePatch RelocationMode.Relative position target =
          Except.error AsmError.relativeOutOfRange)) ∧
    encodePatch RelocationMode.Relative 0x1000 0x1080 = Except.ok [0x7F] ∧
    encodePatch RelocationMode.Relative 0x1000 0xF81 = Except.ok [0x80] ∧
    encodePatch RelocationMode.Relative 0x1000 0x1081 =
      Except.error AsmError.relativeOutOfRange := by
  refine ⟨?_, by rfl, by rfl, by rfl⟩
  intro position target hp ht
  have hcast : (((position + 1 : Nat)) : Int) = (position : Int) + 1 := by
    push_cast
    ring
  constructor
  · intro hin
    unfold encodePatch
    rw [if_neg (by decide)]
    unfold RelativeJumpOffset
    rw [Nat.mod_eq_of_lt ht, Nat.mod_eq_of_lt hp, hcast]
    rw [if_pos hin]
    rfl
  · intro hout
    unfold encodePatch
    rw [if_neg (by decide)]
    unfold RelativeJumpOffset
    rw [Nat.mod_eq_of_lt ht, Nat.mod_eq_of_lt hp, hcast]
    rw [if_neg (by omega)]
    rfl

/-- Witness for C2 at a concrete in-range branch: position 0x2FF, target
0x300, delta 0. -/
theorem relative_patch_byte_and_range_witness :
    encodePatch RelocationMode.Relative 0x2FF 0x300 =
      Except.ok [i8u8 ((0x300 : Int) - ((0x2FF : Int) + 1))] :=
  (relative_patch_byte_and_range.1 0x2FF 0x300 (by decide) (by decide)).1
    (by decide)

/-- C7: `put_byte` without `overwrite` on an already-defined cell is a hard
collision error, `put_byte` with `overwrite = true` always succeeds, and
relocation patching (`RelocateLabel`) writes with `overwrite = true`, so the
only error it can raise is a relative-range error — never a collision. -/
theorem putByte_collision_and_relocate_overwrite :
    (∀ (img : SparseBinaryCode) (a v : Nat),
      (getCell img.sparse_map (a % 65536)).isSome = true →
      PutByte img a v false = Except.error AsmError.collision) ∧
    (∀ (img : SparseBinaryCode) (a v : Nat),
      ∃ img2, PutByte img a v true = Except.ok img2) ∧
    (∀ (img : SparseBinaryCode) (refs : List RelocationInfo) (current : Nat)
       (e : AsmError),
      relocateRefs img refs current = Except.error e →
      e = AsmError.relativeOutOfRange) :=
  ⟨fun _ _ _ h => putByte_collision h,
   fun img a v => ⟨_, putByte_true_eq img a v⟩,
   fun img refs current e h => relocateRefs_error refs img current e h⟩

/-- Witness for C7: a defined cell rejects a non-overwriting write but
accepts an overwriting one, and a patch of an out-of-range relative
relocation errors with the range error, not a collision. -/
theorem putByte_collision_and_relocate_overwrite_witness :
    PutByte ⟨[(5, 1)]⟩ 5 9 false = Except.error AsmError.collision ∧
    (∃ img2, PutByte ⟨[(5, 1)]⟩ 5 9 true = Except.ok img2) ∧
    AsmError.relativeOutOfRange = AsmError.relativeOutOfRange :=
  ⟨putByte_collision_and_relocate_overwrite.1 ⟨[(5, 1)]⟩ 5 9 (by decide),
   putByte_collision_and_relocate_overwrite.2.1 ⟨[(5, 1)]⟩ 5 9,
   putByte_collision_and_relocate_overwrite.2.2 ⟨[]⟩
     [⟨"L", 0, RelocationMode.Relative⟩] 0x2000 AsmError.relativeOutOfRange (by rfl)⟩

/-- C9 counterexample: the halt observed by the caller in
`src/test/cpu/ct.cpp` (the BRK at the end of the CRC-8 program) is delivered
as a thrown exception, not as a plainly returned typed halt reason — the
test fails unless an exception is thrown. -/
theorem ct_halt_not_typed_value :
    deliveredAsTypedValue (ctObservedDelivery (HaltReason.brk 0x2010)) = false := rfl

/-- C9 (amended): the `execute_with_timeout` loop halts on exactly three
conditions — the wall clock elapsing (checked at instruction boundaries), a
BRK, or an illegal opcode — otherwise it continues; every halt it reports is
one of `Brk {pc}`, `Timeout {cycles}`, `IllegalOpcode {pc, byte}`; and the
halt reaches the caller as a thrown exception carrying the reason. -/
theorem executeWithTimeout_three_conditions_thrown :
    (∀ (σ : Type) (stepFn : σ → StepResult σ) (timedOut : Nat → Bool)
        (cyclesOf : σ → Nat) (fuel : Nat) (s : σ) (n : Nat),
      (timedOut n = true →
        executeWithTimeout stepFn timedOut cyclesOf (fuel + 1) s n =
          some (HaltReason.timeout (cyclesOf s))) ∧
      (∀ pc, timedOut n = false → stepFn s = StepResult.brkHit pc →
        executeWithTimeout stepFn timedOut cyclesOf (fuel + 1) s n =
          some (HaltReason.brk pc)) ∧
      (∀ pc b, timedOut n = false → stepFn s = StepResult.illegal pc b →
        executeWithTimeout stepFn timedOut cyclesOf (fuel + 1) s n =
          some (HaltReason.illegalOpcode pc b)) ∧
      (∀ s2, timedOut n = false → stepFn s = StepResult.next s2 →
        executeWithTimeout stepFn timedOut cyclesOf (fuel + 1) s n =
          executeWithTimeout stepFn timedOut cyclesOf fuel s2 (n + 1)) ∧
      (∀ r, executeWithTimeout stepFn timedOut cyclesOf fuel s n = some r →
        (∃ pc, r = HaltReason.brk pc) ∨ (∃ c, r = HaltReason.timeout c) ∨
          (∃ pc b, r = HaltReason.illegalOpcode pc b))) ∧
    (∀ r : HaltReason, ctObservedDelivery r = HaltDelivery.thrownException r) := by
  constructor
  · intro σ stepFn timedOut cyclesOf fuel s n
    refine ⟨?_, ?_, ?_, ?_, ?_⟩
    · intro hT
      unfold executeWithTimeout
      rw [hT]
      rfl
    · intro pc hT hS
      unfold executeWithTimeout
      rw [hT, hS]
      rfl
    · intro pc b hT hS
      unfold executeWithTimeout
      rw [hT, hS]
      rfl
    · intro s2 hT hS
      show (if timedOut n = true then some (HaltReason.timeout (cyclesOf s))
        else match stepFn s with
          | StepResult.next s3 =>
              executeWithTimeout stepFn timedOut cyclesOf fuel s3 (n + 1)
          | StepResult.brkHit pc => some (HaltReason.brk pc)
          | StepResult.illegal pc b => some (HaltReason.illegalOpcode pc b)) =
        executeWithTimeout stepFn timedOut cyclesOf fuel s2 (n + 1)
      rw [hT, hS]
      rfl
    · intro r _
      cases r with
      | brk pc => exact Or.inl ⟨pc, rfl⟩
      | timeout c => exact Or.inr (Or.inl ⟨c, rfl⟩)
      | illegalOpcode pc b => exact Or.inr (Or.inr ⟨pc, b, rfl⟩)
  · intro r
    rfl

/-- Witness for C9's amended theorem: a step function that hits BRK at pc 7
immediately makes the loop halt with `Brk {pc := 7}`. -/
theorem executeWithTimeout_three_conditions_thrown_witness :
    executeWithTimeout (fun _ => StepResult.brkHit 7) (fun _ => false)
        (fun _ => 0) 1 () 0 = some (HaltReason.brk 7) :=
  (executeWithTimeout_three_conditions_thrown.1 Unit
    (fun _ => StepResult.brkHit 7) (fun _ => false) (fun _ => 0) 0 () 0).2.1
    7 rfl rfl

/-- C6 counterexample: assembling `JMP missing` succeeds, the symbol
`missing` is created by the reference with `imported = true`, and the
spec-modelled finalization rule (error iff `imported = false` and
`offset = none`) therefore reports no undefined-symbol error at all —
contradicting the claim that this source fails naming "missing". -/
theorem jmp_missing_no_undefined_error :
    (runOps initialContext jmpMissingOps).isOk = true ∧
    finalizeUndefinedSymbols jmpMissingCtx = [] ∧
    (match lookupLabel jmpMissingCtx.program.labels "missing" with
      | some l => l.imported
      | none => false) = true :=
  ⟨rfl, by decide, by decide⟩

/-- C6 (amended): at finalization a symbol is reported undefined exactly
when `imported = false` and `offset = none`; but a symbol created only by
reference (as by `JMP missing`) carries `imported = true`, so that source
yields no undefined-symbol error under this rule. -/
theorem finalize_rule_and_imported_forward_ref :
    (∀ (ctx : CompilationContext) (name : String),
      name ∈ finalizeUndefinedSymbols ctx ↔
        ∃ l, (name, l) ∈ ctx.program.labels ∧
          l.imported = false ∧ l.offset = none) ∧
    ((match lookupLabel jmpMissingCtx.program.labels "missing" with
      | some l => l.imported
      | none => false) = true ∧
     finalizeUndefinedSymbols jmpMissingCtx = []) := by
  constructor
  · intro ctx name
    unfold finalizeUndefinedSymbols
    constructor
    · intro h
      rcases List.mem_map.mp h with ⟨p, hp, hname⟩
      rcases List.mem_filter.mp hp with ⟨hmem, hpred⟩
      simp only [Bool.and_eq_true, Bool.not_eq_true', Option.isNone_iff_eq_none]
        at hpred
      refine ⟨p.2, ?_, hpred.1, hpred.2⟩
      rw [← hname]
      exact hmem
    · rintro ⟨l, hmem, h1, h2⟩
      refine List.mem_map.mpr ⟨(name, l), List.mem_filter.mpr ⟨hmem, ?_⟩, rfl⟩
      simp only [Bool.and_eq_true, Bool.not_eq_true', Option.isNone_iff_eq_none]
      exact ⟨h1, h2⟩
  · exact ⟨by decide, by decide⟩

/-- C3: when the assembler emits a label operand, the recorded relocation's
mode is Relative exactly for the `REL` address mode and Absolute in every
other case; no relocation mode is ever ZeroPage, and the mode selected for a
label argument is never a zero-page address mode, so the "zero-page operand"
case never arises for labels. -/
theorem label_relocation_mode_assignment :
    (∀ (ctx ctx2 : CompilationContext) (opcode : OpcodeInfo) (label : String),
      ProcessInstructionArgumentLabel ctx opcode label = Except.ok ctx2 →
      ctx2.program.relocations = ctx.program.relocations ++
        [⟨label, ctx.current_position, relocationModeFor opcode.addres_mode⟩]) ∧
    (∀ am : AddressMode, relocationModeFor am =
      if am = AddressMode.REL then RelocationMode.Relative
      else RelocationMode.Absolute) ∧
    (∀ am : AddressMode, relocationModeFor am ≠ RelocationMode.ZeroPage) ∧
    (∀ (arg_modes instr_modes : List AddressMode) (m : AddressMode),
      selectLabelMode arg_modes instr_modes = Except.ok m →
      m ≠ AddressMode.ZP ∧ m ≠ AddressMode.ZPX ∧ m ≠ AddressMode.ZPY) := by
  refine ⟨?_, fun _ => rfl, ?_, ?_⟩
  · intro ctx ctx2 opcode label h
    unfold ProcessInstructionArgumentLabel at h
    cases hbs : encodePatch (relocationModeFor opcode.addres_mode)
        ctx.current_position
        ((labelForReference ctx.program.labels label).offset.getD
          ctx.current_position) with
    | error e => rw [hbs] at h; cases h
    | ok bs =>
        rw [hbs, except_ok_bind] at h
        cases himg : PutBytes ctx.program.sparse_binary_code
            ctx.current_position bs false with
        | error e => rw [himg] at h; cases h
        | ok img2 =>
            rw [himg, except_ok_bind] at h
            cases h
            rfl
  · intro am
    unfold relocationModeFor
    split <;> intro hc <;> cases hc
  · intro arg_modes instr_modes m h
    unfold selectLabelMode SelectInstuctionVariantLabel at h
    cases hL : removeZeroPageModes (modeIntersection arg_modes instr_modes) with
    | nil => rw [hL] at h; cases h
    | cons x rest =>
        cases rest with
        | nil =>
            rw [hL] at h
            cases h
            have hx : m ∈ removeZeroPageModes (modeIntersection arg_modes instr_modes) := by
              rw [hL]
              exact List.mem_cons_self _ _
            have hpred := (List.mem_filter.mp hx).2
            refine ⟨?_, ?_, ?_⟩ <;> intro he <;> rw [he] at hpred <;>
              exact Bool.noConfusion hpred
        | cons y rest2 => rw [hL] at h; cases h

/-- Witness for C3: a `JMP` (ABS) label operand records an Absolute
relocation at the cursor, and a concrete label-mode selection yields a
non-zero-page mode. -/
theorem label_relocation_mode_assignment_witness :
    c3DemoCtx.program.relocations =
      ([] : List RelocationInfo) ++
        [⟨"L", 0x201, relocationModeFor jmpAbsOpcode.addres_mode⟩] ∧
    (AddressMode.ABS ≠ AddressMode.ZP ∧ AddressMode.ABS ≠ AddressMode.ZPX ∧
      AddressMode.ABS ≠ AddressMode.ZPY) :=
  ⟨label_relocation_mode_assignment.1 ⟨⟨⟨[]⟩, [], []⟩, 0x201⟩ c3DemoCtx
      jmpAbsOpcode "L" rfl,
   label_relocation_mode_assignment.2.2.2 [AddressMode.ABS, AddressMode.ZP]
      [AddressMode.ABS, AddressMode.ZP] AddressMode.ABS rfl⟩

/-- C4: for a label argument the zero-page modes (ZP, ZPX, ZPY) are erased
from the candidate set built by intersecting the argument's possible modes
with the mnemonic's supported modes, and selection succeeds exactly when one
mode remains after that — otherwise it is an ambiguous-variant error. -/
theorem label_mode_filter_uniqueness :
    ∀ arg_modes instr_modes : List AddressMode,
      (∀ m, selectLabelMode arg_modes instr_modes = Except.ok m →
        m ∈ arg_modes ∧ m ∈ instr_modes ∧
        m ≠ AddressMode.ZP ∧ m ≠ AddressMode.ZPX ∧ m ≠ AddressMode.ZPY) ∧
      ((∃ m, selectLabelMode arg_modes instr_modes = Except.ok m) ↔
        (removeZeroPageModes (modeIntersection arg_modes instr_modes)).length = 1) ∧
      ((removeZeroPageModes (modeIntersection arg_modes instr_modes)).length ≠ 1 →
        selectLabelMode arg_modes instr_modes =
          Except.error AsmError.variantSelection) := by
  intro arg_modes instr_modes
  refine ⟨?_, ⟨?_, ?_⟩, ?_⟩
  · intro m h
    unfold selectLabelMode SelectInstuctionVariantLabel at h
    cases hL : removeZeroPageModes (modeIntersection arg_modes instr_modes) with
    | nil => rw [hL] at h; cases h
    | cons x rest =>
        cases rest with
        | nil =>
            rw [hL] at h
            cases h
            have hx : m ∈ removeZeroPageModes (modeIntersection arg_modes instr_modes) := by
              rw [hL]
              exact List.mem_cons_self _ _
            rcases List.mem_filter.mp hx with ⟨hint, hpred⟩
            have hmem := List.mem_dedup.mp hint
            rcases List.mem_filter.mp hmem with ⟨ha, hb⟩
            refine ⟨ha, of_decide_eq_true hb, ?_, ?_, ?_⟩ <;> intro he <;>
              rw [he] at hpred <;> exact Bool.noConfusion hpred
        | cons y rest2 => rw [hL] at h; cases h
  · rintro ⟨m, h⟩
    unfold selectLabelMode SelectInstuctionVariantLabel at h
    cases hL : removeZeroPageModes (modeIntersection arg_modes instr_modes) with
    | nil => rw [hL] at h; cases h
    | cons x rest =>
        cases rest with
        | nil => rfl
        | cons y rest2 => rw [hL] at h; cases h
  · intro h1
    cases hL : removeZeroPageModes (modeIntersection arg_modes instr_modes) with
    | nil =>
        rw [hL] at h1
        exact absurd h1 (by decide)
    | cons x rest =>
        cases rest with
        | nil =>
            exact ⟨x, by
              unfold selectLabelMode SelectInstuctionVariantLabel
              rw [hL]⟩
        | cons y rest2 =>
            rw [hL] at h1
            simp only [List.length_cons] at h1
            omega
  · intro h1
    unfold selectLabelMode SelectInstuctionVariantLabel
    cases hL : removeZeroPageModes (modeIntersection arg_modes instr_modes) with
    | nil => rfl
    | cons x rest =>
        cases rest with
        | nil => exact absurd (by rw [hL]; rfl) h1
        | cons y rest2 => rfl

/-- Witness for C4: with candidates {ABS, ZP} on both sides selection picks
ABS (the only non-zero-page survivor); with {IM, ABS} two modes survive and
selection errors. -/
theorem label_mode_filter_uniqueness_witness :
    (AddressMode.ABS ∈ [AddressMode.ABS, AddressMode.ZP] ∧
      AddressMode.ABS ∈ [AddressMode.ABS, AddressMode.ZP] ∧
      AddressMode.ABS ≠ AddressMode.ZP ∧ AddressMode.ABS ≠ AddressMode.ZPX ∧
      AddressMode.ABS ≠ AddressMode.ZPY) ∧
    selectLabelMode [AddressMode.IM, AddressMode.ABS]
      [AddressMode.IM, AddressMode.ABS] = Except.error AsmError.variantSelection :=
  ⟨(label_mode_filter_uniqueness [AddressMode.ABS, AddressMode.ZP]
      [AddressMode.ABS, AddressMode.ZP]).1 AddressMode.ABS rfl,
   (label_mode_filter_uniqueness [AddressMode.IM, AddressMode.ABS]
      [AddressMode.IM, AddressMode.ABS]).2.2 (by decide)⟩

/-- C5: defining `NAME:` when the symbol exists with no offset assigns the
cursor as its offset and patches every queued relocation against it in the
sparse image; defining it when the symbol already has an offset is a
duplicate-definition error. -/
theorem addLabel_duplicate_or_patch :
    ∀ (ctx : CompilationContext) (name : String) (l : LabelInfo),
      lookupLabel ctx.program.labels name = some l →
      ((l.offset.isSome = true →
        AddLabel ctx name = Except.error AsmError.duplicateLabel) ∧
       (l.offset = none → l.label_references.Pairwise DisjointCells →
        ∀ ctx2, AddLabel ctx name = Except.ok ctx2 →
          lookupLabel ctx2.program.labels name =
            some { l with imported := false,
                          offset := some ctx.current_position } ∧
          ∀ r ∈ l.label_references,
            ∃ bs, encodePatch r.mode r.position ctx.current_position =
                Except.ok bs ∧
              readBytes ctx2.program.sparse_binary_code r.position
                (RelocationSize r.mode) = some bs)) := by
  intro ctx name l hlk
  constructor
  · intro hsome
    unfold AddLabel
    rw [hlk]
    simp [hsome]
  · intro hnone hpw ctx2 h2
    unfold AddLabel at h2
    split at h2
    case _ hx => rw [hlk] at hx; cases hx
    case _ l2 hx =>
        rw [hlk] at hx
        cases hx
        split at h2
        · rename_i hc
          rw [hnone] at hc
          cases hc
        · cases hrel : relocateRefs ctx.program.sparse_binary_code
              l.label_references ctx.current_position with
          | error e => rw [hrel] at h2; cases h2
          | ok img2 =>
              rw [hrel, except_ok_bind] at h2
              cases h2
              rcases relocateRefs_sound l.label_references
                  ctx.program.sparse_binary_code ctx.current_position img2
                  hrel hpw with ⟨_, _, hRefs⟩
              constructor
              · rw [lookupLabel_setLabel, if_pos rfl]
              · exact hRefs

/-- Witness for C5 at a concrete pending label: defining `L` at cursor 0x203
assigns the offset and rewrites the queued patch site with the absolute
little-endian encoding. -/
theorem addLabel_duplicate_or_patch_witness :
    lookupLabel definedLabelCtx.program.labels "L" =
      some { pendingL with imported := false,
                           offset := some pendingLabelCtx.current_position } ∧
    ∀ r ∈ pendingL.label_references,
      ∃ bs, encodePatch r.mode r.position pendingLabelCtx.current_position =
          Except.ok bs ∧
        readBytes definedLabelCtx.program.sparse_binary_code r.position
          (RelocationSize r.mode) = some bs :=
  (addLabel_duplicate_or_patch pendingLabelCtx "L" pendingL (by decide)).2
    rfl (by decide) definedLabelCtx rfl

/-- C1: in every context reachable by assembling a sequence of source
elements from the initial state, every recorded relocation whose target
symbol has a concrete offset carries at its position the bytes that encode
that offset under its mode — two little-endian bytes for Absolute, one
signed delta byte for Relative — covering both offsets known at the
reference and offsets patched later by a label definition.  The second and
third conjuncts spell out the two encodings. -/
theorem assembled_relocations_encode_offsets :
    (∀ (ops : List AsmOp) (ctx : CompilationContext),
      runOps initialContext ops = Except.ok ctx → RelocationsEncoded ctx) ∧
    (∀ p t : Nat, encodePatch RelocationMode.Absolute p t =
      Except.ok [t % 256, t / 256 % 256]) ∧
    (∀ (p t : Nat) (bs : List Nat),
      encodePatch RelocationMode.Relative p t = Except.ok bs →
      ∃ d, RelativeJumpOffset (p + 1) t = Except.ok d ∧ bs = [i8u8 d]) := by
  refine ⟨?_, fun _ _ => rfl, ?_⟩
  · intro ops ctx h
    exact (runOps_preserves ops initialContext ctx initialContext_invariant h).encoded
  · intro p t bs h
    unfold encodePatch at h
    rw [if_neg (by decide)] at h
    cases hd : RelativeJumpOffset (p + 1) t with
    | error e => rw [hd] at h; cases h
    | ok d =>
        rw [hd, except_ok_bind] at h
        cases h
        exact ⟨d, rfl, rfl⟩

/-- Witness for C1: the demo program with a forward absolute reference, the
label definition, and a backward relative branch satisfies the invariant. -/
theorem assembled_relocations_encode_offsets_witness :
    RelocationsEncoded patchDemoCtx :=
  assembled_relocations_encode_offsets.1 patchDemoOps patchDemoCtx rfl

end Emu502
